import Mathlib

/-!
# Verification of `caldav/lib/vcal.py`

A shallow embedding of the text-normalization pipeline (`fix`), the
stateful duplicate-line filter (`LineFilterDiscardingDuplicates`) and the
fragment builder tail of `create_ical` from `src/caldav/lib/vcal.py`,
together with theorems settling the specification claims.

Text is modelled as `List Char` (Python `str`).  Python string literals
appearing in the source are written with `String.data`.
-/

/-! ## Python character classes -/

/-- Python whitespace (the set matched by `re`'s `\s` on `str`, which is
also the default strip set of `str.strip()`): ASCII whitespace plus the
Unicode whitespace code points. -/
def isPySpace (c : Char) : Bool :=
  c.toNat = 32 || (9 ≤ c.toNat && c.toNat ≤ 13) ||
  (28 ≤ c.toNat && c.toNat ≤ 31) || c.toNat = 133 || c.toNat = 160 ||
  c.toNat = 5760 || (8192 ≤ c.toNat && c.toNat ≤ 8202) ||
  c.toNat = 8232 || c.toNat = 8233 || c.toNat = 8239 || c.toNat = 8287 ||
  c.toNat = 12288

/-! ## TextCanonicalizer -/

/-- Modelled from the spec: `to_normal_str` lives in
`caldav.lib.python_utilities`, which is not under `src/`.  Per the spec,
the TextCanonicalizer "coerces input to a canonical line-oriented string
form (consistent encoding, consistent line endings)" and "must be
idempotent".  We model the line-ending normalization: `\r\n` and a lone
`\r` both become `\n` (byte decoding is outside a `List Char` model). -/
def toNormalStr : List Char → List Char
  | [] => []
  | '\r' :: '\n' :: r => '\n' :: toNormalStr r
  | '\r' :: r => '\n' :: toNormalStr r
  | c :: r => c :: toNormalStr r

/-- Lines 60–62 of `fix`: `event = to_normal_str(event)` followed by
appending a newline when the text does not already end with one. -/
def canon (x : List Char) : List Char :=
  if (toNormalStr x).getLast? = some '\n' then toNormalStr x
  else toNormalStr x ++ ['\n']

/-! ## Basic line-oriented utilities -/

/-- Python `str.strip()`: drop leading and trailing whitespace. -/
def pystrip (l : List Char) : List Char :=
  ((l.dropWhile isPySpace).reverse.dropWhile isPySpace).reverse

/-- Python `str.split("\n")`: split on every newline, keeping empty
pieces; the empty string yields `[""]`. -/
def splitNl : List Char → List (List Char)
  | [] => [[]]
  | c :: r =>
    if c = '\n' then [] :: splitNl r
    else
      match splitNl r with
      | [] => [[c]]
      | l :: ls => (c :: l) :: ls

/-- Python `"\n".join(...)`. -/
def joinNl : List (List Char) → List Char
  | [] => []
  | [l] => l
  | l :: l' :: ls => l ++ '\n' :: joinNl (l' :: ls)

/-- Number of newline characters (used to count lines of a document). -/
def countNl (l : List Char) : Nat := l.count '\n'

theorem splitNl_ne_nil (t : List Char) : splitNl t ≠ [] := by
  induction t with
  | nil => simp [splitNl]
  | cons c r ih =>
    simp only [splitNl]
    split
    · simp
    · cases h : splitNl r with
      | nil => exact absurd h ih
      | cons l ls => simp

theorem joinNl_splitNl (t : List Char) : joinNl (splitNl t) = t := by
  induction t with
  | nil => rfl
  | cons c r ih =>
    simp only [splitNl]
    split
    · rename_i hc
      subst hc
      cases h : splitNl r with
      | nil => exact absurd h (splitNl_ne_nil r)
      | cons l ls =>
        rw [h] at ih
        simp [joinNl, ih]
    · cases h : splitNl r with
      | nil => exact absurd h (splitNl_ne_nil r)
      | cons l ls =>
        rw [h] at ih
        cases ls with
        | nil => simpa [joinNl] using ih
        | cons l2 ls2 => simpa [joinNl] using ih

theorem not_mem_splitNl (t : List Char) :
    ∀ l ∈ splitNl t, '\n' ∉ l := by
  induction t with
  | nil => simp [splitNl]
  | cons c r ih =>
    simp only [splitNl]
    split
    · rename_i hc
      intro l hl
      rcases List.mem_cons.1 hl with h | h
      · simp [h]
      · exact ih l h
    · rename_i hc
      cases h : splitNl r with
      | nil => exact absurd h (splitNl_ne_nil r)
      | cons l0 ls =>
        intro l hl
        rcases List.mem_cons.1 hl with h1 | h1
        · subst h1
          intro hmem
          rcases List.mem_cons.1 hmem with h2 | h2
          · exact hc h2.symm
          · exact ih l0 (h ▸ List.mem_cons_self l0 ls) h2
        · exact ih l (h ▸ List.mem_cons_of_mem l0 h1)

example : "ab".data = ['a', 'b'] := rfl
example : splitNl "a\nb".data = [['a'], ['b']] := rfl
example : joinNl [['a'], [], ['b']] = "a\n\nb".data := rfl
example : pystrip " a b \n".data = "a b".data := by decide
example : canon "a".data = "a\n".data := by decide
example : toNormalStr "a\r\nb\rc".data = "a\nb\nc".data := rfl

/-! ## RegexFixupPipeline: the four substitution rules (lines 64–74) -/

theorem isPrefixOf_iff_isPre {p l : List Char} :
    p.isPrefixOf l = true ↔ p <+: l :=
  List.isPrefixOf_iff_prefix

theorem takeWhile_isPre (p : Char → Bool) (l : List Char) :
    l.takeWhile p <+: l :=
  List.takeWhile_prefix p

theorem isPre_iff_eq_take {p l : List Char} :
    p <+: l ↔ p = l.take p.length :=
  List.prefix_iff_eq_take

theorem isPre_or_isPre {l1 l2 l3 : List Char} (h1 : l1 <+: l3)
    (h2 : l2 <+: l3) : l1 <+: l2 ∨ l2 <+: l1 :=
  List.prefix_or_prefix_of_prefix h1 h2

theorem isPre_append (l t : List Char) : l <+: l ++ t :=
  List.prefix_append l t

theorem isPrefixOf_length_le {p l : List Char} (h : p.isPrefixOf l = true) :
    p.length ≤ l.length :=
  (isPrefixOf_iff_isPre.mp h).length_le

theorem eq_append_drop_of_isPrefixOf {p l : List Char}
    (h : p.isPrefixOf l = true) : l = p ++ l.drop p.length := by
  rcases isPrefixOf_iff_isPre.mp h with ⟨t, ht⟩
  subst ht
  simp

/-- One attempted match of `re.sub(r"COMPLETED:(\d+)\s", ...)` at the head
of the text: the literal `COMPLETED:`, a maximal (greedy) nonempty digit
run, then a single whitespace character, which the pattern consumes.  On
success, returns the replacement `COMPLETED:<digits>T120000Z` and the text
after the match. -/
def tryCompleted (l : List Char) : Option (List Char × List Char) :=
  if "COMPLETED:".data.isPrefixOf l then
    match (l.drop 10).drop ((l.drop 10).takeWhile Char.isDigit).length with
    | c :: tail =>
      if (l.drop 10).takeWhile Char.isDigit ≠ [] ∧ isPySpace c then
        some ("COMPLETED:".data ++ (l.drop 10).takeWhile Char.isDigit ++
          "T120000Z".data, tail)
      else none
    | [] => none
  else none

theorem tryCompleted_length {l rep rest : List Char}
    (h : tryCompleted l = some (rep, rest)) : rest.length < l.length := by
  unfold tryCompleted at h
  split at h
  · rename_i hpre
    split at h
    · rename_i c tail heq
      split at h
      · cases h
        have h2 := congrArg List.length heq
        simp only [List.length_drop, List.length_cons] at h2
        have h3 := isPrefixOf_length_le hpre
        simp at h3
        omega
      · exact absurd h (by simp)
    · exact absurd h (by simp)
  · exact absurd h (by simp)

theorem tryCompleted_spec {l rep rest : List Char}
    (h : tryCompleted l = some (rep, rest)) :
    ∃ ds c, l = "COMPLETED:".data ++ ds ++ c :: rest ∧
      rep = "COMPLETED:".data ++ ds ++ "T120000Z".data ∧
      ds ≠ [] ∧ (∀ d ∈ ds, d.isDigit) ∧ isPySpace c := by
  unfold tryCompleted at h
  split at h
  · rename_i hpre
    split at h
    · rename_i c tail heq
      split at h
      · rename_i hcond
        cases h
        refine ⟨(l.drop 10).takeWhile Char.isDigit, c, ?_, rfl, hcond.1,
          fun d hd => List.mem_takeWhile_imp hd, hcond.2⟩
        have h1 : l = "COMPLETED:".data ++ l.drop 10 := by
          simpa using eq_append_drop_of_isPrefixOf hpre
        conv_lhs => rw [h1]
        have h2 : l.drop 10 =
            ((l.drop 10).takeWhile Char.isDigit) ++ c :: rest := by
          conv_lhs =>
            rw [← List.take_append_drop
              (((l.drop 10).takeWhile Char.isDigit).length) (l.drop 10)]
          rw [heq]
          congr 1
          exact (isPre_iff_eq_take.mp (takeWhile_isPre _ _)).symm
        conv_lhs => rw [h2]
        simp
      · exact absurd h (by simp)
    · exact absurd h (by simp)
  · exact absurd h (by simp)

/-- Line 66: `fixed = re.sub(r"COMPLETED:(\d+)\s", r"COMPLETED:\g<1>T120000Z", event)`.
Left-to-right non-overlapping scan; note the `\s` is consumed by the
match and not re-emitted by the replacement.  The `fuel` argument (always
instantiated with the text length, which strictly bounds the scan) makes
the recursion structural so the function computes by `rfl`/`decide`. -/
def rule1F : Nat → List Char → List Char
  | 0, l => l
  | fuel + 1, l =>
    match tryCompleted l with
    | some (rep, rest) => rep ++ rule1F fuel rest
    | none =>
      match l with
      | [] => []
      | c :: r => c :: rule1F fuel r

def rule1 (l : List Char) : List Char := rule1F l.length l

/-- Line 70: `fixed = re.sub("CREATED:00001231T000000Z", "CREATED:19700101T000000Z", fixed)`. -/
def rule2F : Nat → List Char → List Char
  | 0, l => l
  | fuel + 1, l =>
    if "CREATED:00001231T000000Z".data.isPrefixOf l then
      "CREATED:19700101T000000Z".data ++ rule2F fuel (l.drop 24)
    else
      match l with
      | [] => []
      | c :: r => c :: rule2F fuel r

def rule2 (l : List Char) : List Char := rule2F l.length l

/-- Line 71: `fixed = re.sub(r"\\+('\")", r"\1", fixed)`.  The pattern is
one-or-more backslashes followed by the two-character sequence `'"`
(an apostrophe and then a double quote — the group `('\")` is a literal
two-character sequence, not a character class); the backslashes are
dropped and the `'"` kept. -/
def tryQuote (l : List Char) : Option (List Char) :=
  match l with
  | [] => none
  | c :: rest =>
    if c = '\\' then
      match rest.drop ((rest.takeWhile (fun d => d = '\\')).length) with
      | '\'' :: '"' :: tail => some tail
      | _ => none
    else none

def rule3F : Nat → List Char → List Char
  | 0, l => l
  | fuel + 1, l =>
    match tryQuote l with
    | some tail => '\'' :: '"' :: rule3F fuel tail
    | none =>
      match l with
      | [] => []
      | c :: r => c :: rule3F fuel r

def rule3 (l : List Char) : List Char := rule3F l.length l

/-- Helper for rule 4: remove a trailing run of space characters. -/
def dropTrailingSpaces (l : List Char) : List Char :=
  (l.reverse.dropWhile (fun c => c = ' ')).reverse

/-- Line 74: `fixed = re.sub(" *$", "", fixed)`.  Without `re.MULTILINE`,
`$` matches only at the end of the string and just before a final
newline, so only the trailing spaces of the document end (before the
final newline, if any) are removed — not the trailing spaces of every
line. -/
def rule4 (l : List Char) : List Char :=
  if l.getLast? = some '\n' then dropTrailingSpaces l.dropLast ++ ['\n']
  else dropTrailingSpaces l

example : rule1 "COMPLETED:20200101 x".data = "COMPLETED:20200101T120000Zx".data := rfl
example : rule1 "COMPLETED:1\nX\n".data = "COMPLETED:1T120000ZX\n".data := rfl
example : rule2 "a CREATED:00001231T000000Z b".data = "a CREATED:19700101T000000Z b".data := rfl
example : rule3 "x\\\\'\"y".data = "x'\"y".data := rfl
example : rule3 "x\\\"y".data = "x\\\"y".data := rfl
example : rule4 "a \nb \n".data = "a \nb\n".data := rfl
example : rule4 "ab   ".data = "ab".data := rfl

/-! ## DuplicateLineFilter: `LineFilterDiscardingDuplicates` (lines 118–144) -/

/-- `line.startswith("BEGIN:V")` (line 130). -/
def isBeginV (l : List Char) : Bool := "BEGIN:V".data.isPrefixOf l

/-- `re.match("(DURATION|DTEND|DUE)[:;]", line)` (line 134): anchored at
the start of the line, one of the three property names followed by `:`
or `;`. -/
def matchesEnded (l : List Char) : Bool :=
  "DURATION:".data.isPrefixOf l || "DURATION;".data.isPrefixOf l ||
  "DTEND:".data.isPrefixOf l || "DTEND;".data.isPrefixOf l ||
  "DUE:".data.isPrefixOf l || "DUE;".data.isPrefixOf l

/-- `re.match("DTSTAMP[:;]", line)` (line 139). -/
def matchesStamp (l : List Char) : Bool :=
  "DTSTAMP:".data.isPrefixOf l || "DTSTAMP;".data.isPrefixOf l

/-- The filter's per-document state: `self.stamped` and `self.ended`
(lines 125–127). -/
structure LineFilterDiscardingDuplicates where
  stamped : Nat
  ended : Nat
deriving DecidableEq

/-- `__call__` (lines 129–144): returns the updated state and whether the
line is kept (`True`) or dropped (`False`). -/
def lineCall (s : LineFilterDiscardingDuplicates) (line : List Char) :
    LineFilterDiscardingDuplicates × Bool :=
  if isBeginV line then (⟨0, 0⟩, true)
  else if matchesEnded line then
    if s.ended ≠ 0 then (s, false) else ({ s with ended := s.ended + 1 }, true)
  else if matchesStamp line then
    if s.stamped ≠ 0 then (s, false) else ({ s with stamped := s.stamped + 1 }, true)
  else (s, true)

/-- Python `filter(LineFilterDiscardingDuplicates(), lines)` starting from
state `s`: the subsequence of kept lines. -/
def runFilter (s : LineFilterDiscardingDuplicates) :
    List (List Char) → List (List Char)
  | [] => []
  | l :: ls =>
    if (lineCall s l).2 then l :: runFilter (lineCall s l).1 ls
    else runFilter (lineCall s l).1 ls

/-- The filter state after consuming the lines `pre` (a fresh filter
starts at `⟨0, 0⟩`). -/
def stateAfter (pre : List (List Char)) : LineFilterDiscardingDuplicates :=
  pre.foldl (fun s l => (lineCall s l).1) ⟨0, 0⟩

/-- The keep/drop decision the filter makes for line `l` when the lines
`pre` precede it in the document. -/
def decideKeep (pre : List (List Char)) (l : List Char) : Bool :=
  (lineCall (stateAfter pre) l).2

/-- The lines of `pre` after the last line starting with `BEGIN:V` (all of
`pre` if there is none): the current component block's lines so far. -/
def segmentSinceBegin (pre : List (List Char)) : List (List Char) :=
  pre.foldl (fun acc l => if isBeginV l then [] else acc ++ [l]) []

/-! ## `fix` (lines 29–115) -/

/-- Lines 64–83 of `fix`: the four substitutions followed by
`"\n".join(filter(LineFilterDiscardingDuplicates(), fixed.strip().split("\n"))) + "\n"`,
applied to the already-canonicalized text `event`. -/
def pipelineFix (event : List Char) : List Char :=
  joinNl (runFilter ⟨0, 0⟩ (splitNl (pystrip (rule4 (rule3 (rule2 (rule1 event))))))) ++ ['\n']

/-- The text returned by `fix`. -/
def fixOut (x : List Char) : List Char := pipelineFix (canon x)

/-- `fix`, with the process-wide counter `fixup_error_loggings` passed
explicitly: returns the fixed text and the new counter value (lines
85–87: the counter is incremented exactly when `fixed2 != event`).  The
logging itself (lines 88–113) writes to the diagnostics sink and does not
affect the returned text or the counter. -/
def fix (x : List Char) (fixup_error_loggings : Nat) : List Char × Nat :=
  let event := canon x
  let fixed2 := pipelineFix event
  (fixed2, if fixed2 ≠ event then fixup_error_loggings + 1 else fixup_error_loggings)

example : fixOut "BEGIN:VEVENT\nEND:VEVENT\n".data = "BEGIN:VEVENT\nEND:VEVENT\n".data := rfl
example : fixOut "DTSTAMP:1\n\nDTSTAMP:2\n".data = "DTSTAMP:1\n\n".data := rfl
example : fixOut "BEGIN:VEVENT\nDTEND:1\nDURATION:2\nEND:VEVENT\n".data =
    "BEGIN:VEVENT\nDTEND:1\nEND:VEVENT\n".data := rfl
example : fixOut "A: \nB\n".data = "A: \nB\n".data := rfl

/-! ## `create_ical` (lines 148–209)

The icalendar library (parsing, the component tree and `to_ical`
serialization) is an external collaborator per the spec; the model below
covers the control flow of `create_ical` itself, taking the serialized
text `ret0` produced by `my_instance.to_ical()` as a parameter. -/

/-- `re.search("^BEGIN:V", s, re.MULTILINE)` and friends: is there a
position at the start of a line (tracked by `atStart`) where `pat` is a
prefix of the remaining text? -/
def hasLineStartPrefix (pat : List Char) : Bool → List Char → Bool
  | atStart, l =>
    (atStart && pat.isPrefixOf l) ||
      match l with
      | [] => false
      | c :: r => hasLineStartPrefix pat (c = '\n') r

/-- Line 153's search: does the fragment contain a line starting with
`BEGIN:V`? -/
def hasBeginV (l : List Char) : Bool := hasLineStartPrefix "BEGIN:V".data true l

/-- Three-character octal value helper for the replacement template. -/
def octVal (c : Char) : Nat := c.toNat - 48

def isOct (c : Char) : Bool := '0' ≤ c && c ≤ '7'

/-- CPython's `re` replacement-template processing (`parse_template` in
`sre_parse`/`re._parser`), specialized to the pattern `"^END:V"` of line
202, which has zero capture groups and whose whole match (group 0) is
always the text `END:V`.  Backslash escapes in the template are
interpreted: `\a \b \f \n \r \t \v \\` become control characters,
`\g<0>` becomes the matched text, `\0` (plus up to two octal digits) and
`\ooo` (three octal digits) become the coded character, any other
digit escape is an invalid group reference (with zero groups), any other
ASCII-letter escape is a bad escape, a backslash before any other
character is kept literally, and a trailing backslash is an error.
`none` models the raised `re.error`/`IndexError`. -/
def parseTemplateF : Nat → List Char → Option (List Char)
  | 0, l => some l
  | _ + 1, [] => some []
  | fuel + 1, c :: rest =>
    if c = '\\' then
      match rest with
      | [] => none
      | 'g' :: r2 =>
        match r2 with
        | '<' :: r3 =>
          match r3.drop ((r3.takeWhile Char.isDigit).length) with
          | '>' :: tail =>
            if (r3.takeWhile Char.isDigit) ≠ [] ∧
                (r3.takeWhile Char.isDigit).all (fun d => d = '0') then
              ("END:V".data ++ ·) <$> parseTemplateF fuel tail
            else none
          | _ => none
        | _ => none
      | e :: r2 =>
        if e = '\\' then ('\\' :: ·) <$> parseTemplateF fuel r2
        else if e = 'a' then (Char.ofNat 7 :: ·) <$> parseTemplateF fuel r2
        else if e = 'b' then (Char.ofNat 8 :: ·) <$> parseTemplateF fuel r2
        else if e = 'f' then (Char.ofNat 12 :: ·) <$> parseTemplateF fuel r2
        else if e = 'n' then ('\n' :: ·) <$> parseTemplateF fuel r2
        else if e = 'r' then ('\r' :: ·) <$> parseTemplateF fuel r2
        else if e = 't' then (Char.ofNat 9 :: ·) <$> parseTemplateF fuel r2
        else if e = 'v' then (Char.ofNat 11 :: ·) <$> parseTemplateF fuel r2
        else if e = '0' then
          match r2 with
          | d1 :: r3 =>
            if isOct d1 then
              match r3 with
              | d2 :: r4 =>
                if isOct d2 then
                  (Char.ofNat (octVal d1 * 8 + octVal d2) :: ·) <$>
                    parseTemplateF fuel r4
                else (Char.ofNat (octVal d1) :: ·) <$> parseTemplateF fuel r3
              | [] => (Char.ofNat (octVal d1) :: ·) <$> parseTemplateF fuel r3
            else (Char.ofNat 0 :: ·) <$> parseTemplateF fuel r2
          | [] => (Char.ofNat 0 :: ·) <$> parseTemplateF fuel r2
        else if e.isDigit then
          match r2 with
          | d2 :: r3 =>
            if d2.isDigit then
              match r3 with
              | d3 :: r4 =>
                if isOct e ∧ isOct d2 ∧ isOct d3 then
                  if octVal e * 64 + octVal d2 * 8 + octVal d3 ≤ 255 then
                    (Char.ofNat (octVal e * 64 + octVal d2 * 8 + octVal d3) :: ·) <$>
                      parseTemplateF fuel r4
                  else none
                else none
              | [] => none
            else none
          | [] => none
        else if e.isAlpha then none
        else ('\\' :: e :: ·) <$> parseTemplateF fuel r2
    else (· :: ·) c <$> parseTemplateF fuel rest

def parseTemplate (l : List Char) : Option (List Char) :=
  parseTemplateF l.length l

/-- The `count=1`, `re.MULTILINE` substitution of lines 202–208: replace
the first occurrence of `END:V` at the start of a line with the processed
template `tmpl`. -/
def spliceAux (tmpl : List Char) : Bool → List Char → List Char
  | _, [] => []
  | atStart, c :: r =>
    if atStart ∧ "END:V".data.isPrefixOf (c :: r) then tmpl ++ (c :: r).drop 5
    else c :: spliceAux tmpl (c = '\n') r

def subFirstEndV (tmpl ret0 : List Char) : List Char := spliceAux tmpl true ret0

/-- The value of the `ical_fragment` variable after the construct/augment
branch (lines 153–183): the construct path keeps the (normalized)
fragment, the augment path (non-empty fragment containing a `BEGIN:V`
line) sets it to `None` (line 183). -/
def create_ical_fragVar (frag : List Char) : Option (List Char) :=
  if frag = [] ∨ hasBeginV frag = false then some frag else none

/-- Lines 200–209: given the fragment variable and the serialized text
`ret0 = to_normal_str(my_instance.to_ical())`, perform the final splice.
`none` models an exception raised by the replacement-template
processing. -/
def create_ical_finish (fragVar : Option (List Char)) (ret0 : List Char) :
    Option (List Char) :=
  match fragVar with
  | none => some ret0
  | some f =>
    if f ≠ [] ∧ pystrip f ≠ [] then
      (parseTemplate (pystrip f ++ '\n' :: "END:V".data)).map
        (fun tmpl => subFirstEndV tmpl ret0)
    else some ret0

/-- The text returned by `create_ical`, as a function of the raw fragment
and the externally serialized component tree `ret0`. -/
def create_ical_out (frag ret0 : List Char) : Option (List Char) :=
  create_ical_finish (create_ical_fragVar (toNormalStr frag)) ret0

/-- The splice as the spec's words describe it: the stripped fragment
text is inserted as new lines immediately before the first line of
`ret0` that starts with `END:V`. -/
def spliceSpec (frag ret0 : List Char) : List Char :=
  joinNl ((splitNl ret0).take ((splitNl ret0).findIdx
      (fun l => "END:V".data.isPrefixOf l)) ++
    splitNl (pystrip frag) ++
    (splitNl ret0).drop ((splitNl ret0).findIdx
      (fun l => "END:V".data.isPrefixOf l)))

/-! ## The property merge of `create_ical` (lines 185–189) -/

/-- A Python `datetime.datetime` for the purpose of lines 187–189: the
naive wall-clock reading (encoded as a single integer, e.g. minutes on a
timeline ignoring zones) and the attached `tzinfo` as a UTC offset in
minutes (`none` = naive). -/
structure PyDatetime where
  wall : Int
  tzOffset : Option Int
deriving DecidableEq

/-- `d.astimezone(datetime.timezone.utc)`: a naive datetime is presumed
to be in the process's local timezone (`localOffset` minutes east of
UTC) and is converted to the same instant expressed in UTC; an aware
datetime is converted from its own offset. -/
def astimezoneUtc (localOffset : Int) (d : PyDatetime) : PyDatetime :=
  match d.tzOffset with
  | none => ⟨d.wall - localOffset, some 0⟩
  | some o => ⟨d.wall - o, some 0⟩

/-- Lines 187–189: the value actually merged for a datetime-valued
property: naive values go through `astimezone(utc)`, aware values are
kept. -/
def mergePropValue (localOffset : Int) (d : PyDatetime) : PyDatetime :=
  if d.tzOffset = none then astimezoneUtc localOffset d else d

example : hasBeginV "X\nBEGIN:VEVENT\n".data = true := rfl
example : hasBeginV "X-A:1\nB:2".data = false := rfl
example : parseTemplate "a\\nb".data = some "a\nb".data := rfl
example : parseTemplate "a\\db".data = none := rfl
example : parseTemplate "a\\g<0>b".data = some "aEND:Vb".data := rfl
example : parseTemplate "a\\,b".data = some "a\\,b".data := rfl
example : subFirstEndV "X\nEND:V".data "BEGIN:VCALENDAR\nEND:VCALENDAR\n".data =
    "BEGIN:VCALENDAR\nX\nEND:VCALENDAR\n".data := rfl
example : create_ical_out "BEGIN:VEVENT\nX-FOO:1\nEND:VEVENT\n".data
    "BEGIN:VCALENDAR\nEND:VCALENDAR\n".data =
    some "BEGIN:VCALENDAR\nEND:VCALENDAR\n".data := rfl
example : create_ical_out "X-FOO:1".data "BEGIN:VCALENDAR\nEND:VCALENDAR\n".data =
    some "BEGIN:VCALENDAR\nX-FOO:1\nEND:VCALENDAR\n".data := rfl
example : spliceSpec "X-FOO:1".data "BEGIN:VCALENDAR\nEND:VCALENDAR\n".data =
    "BEGIN:VCALENDAR\nX-FOO:1\nEND:VCALENDAR\n".data := rfl
example : mergePropValue 120 ⟨600, none⟩ = ⟨480, some 0⟩ := rfl

/-! ## Lemmas about the substitution scanners -/

theorem tryQuote_length {l tail : List Char} (h : tryQuote l = some tail) :
    tail.length < l.length := by
  cases l with
  | nil => simp [tryQuote] at h
  | cons c rest =>
    simp only [tryQuote] at h
    split at h
    · split at h
      · rename_i t heq
        cases h
        have h2 := congrArg List.length heq
        simp only [List.length_drop, List.length_cons] at h2
        simp only [List.length_cons]
        omega
      · exact absurd h (by simp)
    · exact absurd h (by simp)

theorem tryQuote_spec {l tail : List Char} (h : tryQuote l = some tail) :
    ∃ m, l = List.replicate (m + 1) '\\' ++ '\'' :: '"' :: tail := by
  cases l with
  | nil => simp [tryQuote] at h
  | cons c rest =>
    simp only [tryQuote] at h
    split at h
    · rename_i hc
      subst hc
      split at h
      · rename_i t heq
        cases h
        refine ⟨(rest.takeWhile (fun d => d = '\\')).length, ?_⟩
        have h2 : rest.takeWhile (fun d => d = '\\') =
            List.replicate ((rest.takeWhile (fun d => d = '\\')).length) '\\' := by
          apply List.eq_replicate_of_mem
          intro b hb
          simpa using List.mem_takeWhile_imp hb
        have h3 : rest =
            rest.takeWhile (fun d => d = '\\') ++ '\'' :: '"' :: tail := by
          conv_lhs =>
            rw [← List.take_append_drop
              ((rest.takeWhile (fun d => d = '\\')).length) rest]
          rw [heq]
          congr 1
          exact (isPre_iff_eq_take.mp (takeWhile_isPre _ _)).symm
        rw [List.replicate_succ]
        conv_lhs => rw [h3, h2]
        simp
      · exact absurd h (by simp)
    · exact absurd h (by simp)

theorem rule3F_congr (f1 : Nat) : ∀ (f2 : Nat) (l : List Char),
    l.length ≤ f1 → l.length ≤ f2 → rule3F f1 l = rule3F f2 l := by
  induction f1 with
  | zero =>
    intro f2 l h1 h2
    have hl : l = [] := List.eq_nil_of_length_eq_zero (Nat.le_zero.mp h1)
    subst hl
    cases f2 with
    | zero => rfl
    | succ f2' => rfl
  | succ f ih =>
    intro f2 l h1 h2
    cases l with
    | nil =>
      cases f2 with
      | zero => rfl
      | succ f2' => rfl
    | cons c rest =>
      cases f2 with
      | zero => simp at h2
      | succ f2' =>
        simp only [rule3F]
        cases hm : tryQuote (c :: rest) with
        | some tail =>
          have hlen := tryQuote_length hm
          simp only [List.length_cons] at h1 h2 hlen
          exact congrArg (fun z => '\'' :: '"' :: z)
            (ih f2' tail (by omega) (by omega))
        | none =>
          simp only [List.length_cons] at h1 h2
          exact congrArg (fun z => c :: z) (ih f2' rest (by omega) (by omega))

/-! ## Canonicalizer lemmas -/

theorem toNormalStr_no_cr (x : List Char) : '\r' ∉ toNormalStr x := by
  induction x using toNormalStr.induct <;> simp only [toNormalStr] <;>
    first
    | (simp_all; done)
    | (simp_all; rename_i hc _; exact fun h => hc h.symm)

theorem toNormalStr_of_no_cr {l : List Char} (h : '\r' ∉ l) :
    toNormalStr l = l := by
  induction l using toNormalStr.induct with
  | case1 => rfl
  | case2 r ih => simp at h
  | case3 r hne ih => simp at h
  | case4 c r hc hne ih =>
    simp only [toNormalStr]
    rw [ih (fun hm => h (List.mem_cons_of_mem c hm))]

theorem canon_getLast (x : List Char) : (canon x).getLast? = some '\n' := by
  unfold canon
  split
  · assumption
  · exact List.getLast?_concat _

theorem canon_no_cr (x : List Char) : '\r' ∉ canon x := by
  unfold canon
  split
  · exact toNormalStr_no_cr x
  · intro hmem
    rcases List.mem_append.mp hmem with h | h
    · exact toNormalStr_no_cr x h
    · simp at h

theorem canon_canon (x : List Char) : canon (canon x) = canon x := by
  conv_lhs => rw [canon]
  simp only [toNormalStr_of_no_cr (canon_no_cr x), canon_getLast x, if_pos]

theorem fixOut_canon (x : List Char) : fixOut (canon x) = fixOut x := by
  unfold fixOut
  rw [canon_canon]

/-! ## Claim theorems -/

/-- C2: the fixup pipeline is claimed to remove trailing spaces at the end
of every line; evaluating the embedded `fix` shows it does not.  The
regex `" *$"` of line 74 is compiled without `re.MULTILINE`, so for the
input `"X-APPLE-STRUCTURED-EVENT:x \nEND:VEVENT\n"` — precisely the
shape the docstring's item 4 says the rule is meant to repair — the
trailing space of the interior line survives the whole pipeline: the
output equals the input and its first line still ends with a space. -/
theorem C2_interior_trailing_space_kept :
    fixOut "X-APPLE-STRUCTURED-EVENT:x \nEND:VEVENT\n".data =
      "X-APPLE-STRUCTURED-EVENT:x \nEND:VEVENT\n".data ∧
    (splitNl (fixOut "X-APPLE-STRUCTURED-EVENT:x \nEND:VEVENT\n".data)).head? =
      some "X-APPLE-STRUCTURED-EVENT:x ".data :=
  ⟨rfl, rfl⟩

/-- C4: for a caller-supplied naive datetime, `astimezone(timezone.utc)`
(line 189) presumes the *local* timezone and converts, shifting the
wall-clock reading by the local offset; with a local offset of +120
minutes, a naive wall-clock value 600 is merged as 480, not 600.  Only
under a UTC local zone (offset 0) is the wall clock preserved. -/
theorem C4_astimezone_consults_local_zone :
    mergePropValue 120 ⟨600, none⟩ = ⟨480, some 0⟩ ∧
    (mergePropValue 120 ⟨600, none⟩).wall ≠ 600 ∧
    (mergePropValue 0 ⟨600, none⟩).wall = 600 := by
  refine ⟨rfl, ?_, rfl⟩
  intro h
  simp [mergePropValue, astimezoneUtc] at h

/-- C9: the counter `fixup_error_loggings` is incremented by exactly one
when the returned text differs from the canonicalized input `event`, and
left unchanged when they are equal (lines 85–87). -/
theorem C9_counter_increment (x : List Char) (c : Nat) :
    (fix x c).2 = (if (fix x c).1 = canon x then c else c + 1) ∧
    ((fix x c).2 = c ↔ (fix x c).1 = canon x) ∧
    ((fix x c).2 = c + 1 ↔ (fix x c).1 ≠ canon x) := by
  by_cases h : pipelineFix (canon x) = canon x
  · simp [fix, h]
  · simp [fix, h]

/-- C7 counterexample: on `"DTSTAMP:1\n\nDTSTAMP:2\n"` the filter drops
the final `DTSTAMP` line, leaving a kept empty line before the appended
newline, so the output ends in two newline characters — not exactly
one. -/
theorem C7_counterexample :
    fixOut "DTSTAMP:1\n\nDTSTAMP:2\n".data = "DTSTAMP:1\n\n".data ∧
    "DTSTAMP:1\n\n".data.getLast? = some '\n' ∧
    "DTSTAMP:1\n\n".data.dropLast.getLast? = some '\n' :=
  ⟨rfl, rfl, rfl⟩

/-- C7 (amended): the output of the fixup pipeline always ends with a
trailing newline (at least one; not always exactly one). -/
theorem C7_ends_with_newline (x : List Char) :
    (fixOut x).getLast? = some '\n' := by
  unfold fixOut pipelineFix
  exact List.getLast?_concat _

/-- C6 counterexample: the pipeline is not idempotent; on
`"DTSTAMP:1\n\nDTSTAMP:2\n"` the second application removes the doubled
trailing newline the first produced. -/
theorem C6_counterexample :
    fixOut (fixOut "DTSTAMP:1\n\nDTSTAMP:2\n".data) ≠
      fixOut "DTSTAMP:1\n\nDTSTAMP:2\n".data := by
  intro h
  have h1 : fixOut (fixOut "DTSTAMP:1\n\nDTSTAMP:2\n".data) =
      "DTSTAMP:1\n".data := rfl
  have h2 : fixOut "DTSTAMP:1\n\nDTSTAMP:2\n".data =
      "DTSTAMP:1\n\n".data := rfl
  rw [h1, h2] at h
  simp at h

/-- C6 (amended): the pipeline is idempotent on every input it does not
modify: if `fix` returns the canonicalized input unchanged, a second
application returns the same text. -/
theorem C6_idempotent_on_unchanged (x : List Char)
    (h : fixOut x = canon x) : fixOut (fixOut x) = fixOut x := by
  rw [h, fixOut_canon]
  exact h

theorem C6_idempotent_on_unchanged_witness :
    fixOut "BEGIN:VEVENT\nEND:VEVENT\n".data =
      canon "BEGIN:VEVENT\nEND:VEVENT\n".data ∧
    fixOut (fixOut "BEGIN:VEVENT\nEND:VEVENT\n".data) =
      fixOut "BEGIN:VEVENT\nEND:VEVENT\n".data :=
  ⟨rfl, C6_idempotent_on_unchanged _ rfl⟩

/-- C3 counterexample: a lone backslash before a double quote is *not*
unescaped: both at the level of rule 3 and through the whole pipeline,
`X:\"` is left unchanged, because the pattern `r"\\+('\")"` demands an
apostrophe-then-quote pair after the backslashes. -/
theorem C3_counterexample :
    rule3 "X:\\\"\n".data = "X:\\\"\n".data ∧
    fixOut "X:\\\"\n".data = "X:\\\"\n".data :=
  ⟨rfl, rfl⟩

/-- C3 (amended): rule 3 strips a maximal run of backslashes only when it
is immediately followed by the two-character sequence `'"` (apostrophe
then double quote), leaving the bare `'"`; a backslash before a lone
double quote is kept as-is. -/
theorem C3_backslash_quote_pair (n : Nat) (tail : List Char) (h : 1 ≤ n) :
    rule3 (List.replicate n '\\' ++ '\'' :: '"' :: tail) =
      '\'' :: '"' :: rule3 tail ∧
    rule3 ('\\' :: '"' :: tail) = '\\' :: '"' :: rule3 tail := by
  constructor
  · obtain ⟨m, rfl⟩ : ∃ m, n = m + 1 := ⟨n - 1, by omega⟩
    have h1 : (List.replicate m '\\' ++ '\'' :: '"' :: tail).takeWhile
        (fun d => d = '\\') = List.replicate m '\\' := by
      induction m with
      | zero => simp [List.takeWhile]
      | succ k ihk =>
        rw [List.replicate_succ, List.cons_append]
        simp only [List.takeWhile]
        simp [ihk]
    have hq : tryQuote (List.replicate (m + 1) '\\' ++ '\'' :: '"' :: tail) =
        some tail := by
      rw [List.replicate_succ, List.cons_append]
      simp only [tryQuote, h1, List.length_replicate, if_pos]
      rw [show List.drop m (List.replicate m '\\' ++ '\'' :: '"' :: tail) =
        '\'' :: '"' :: tail from List.drop_left' (by simp)]
      rfl
    have hlen : (List.replicate (m + 1) '\\' ++ '\'' :: '"' :: tail).length =
        (m + 2 + tail.length) + 1 := by simp; omega
    unfold rule3
    rw [hlen]
    simp only [rule3F, hq]
    refine congrArg (fun z => '\'' :: '"' :: z) ?_
    exact rule3F_congr _ _ _ (by omega) (by omega)
  · rfl

/-- C1 counterexample: in augment mode (non-empty fragment containing a
`BEGIN:V` line) `create_ical` sets `ical_fragment = None` at line 183
before serializing, so nothing is spliced back: the returned text is the
serializer's output unchanged, and the fragment's distinctive line
`X-FOO:1` appears nowhere in it. -/
theorem C1_counterexample :
    create_ical_out "BEGIN:VEVENT\nX-FOO:1\nEND:VEVENT\n".data
      "BEGIN:VCALENDAR\nBEGIN:VEVENT\nEND:VEVENT\nEND:VCALENDAR\n".data =
      some "BEGIN:VCALENDAR\nBEGIN:VEVENT\nEND:VEVENT\nEND:VCALENDAR\n".data ∧
    ¬ ("X-FOO:1".data <:+:
      "BEGIN:VCALENDAR\nBEGIN:VEVENT\nEND:VEVENT\nEND:VCALENDAR\n".data) :=
  ⟨rfl, by decide⟩

/-- C1 (amended): in augment mode the original fragment text is discarded
(line 183) and never re-inserted; `create_ical` returns the serialized
text unchanged.  The verbatim splice of lines 200–209 happens only on the
construct path. -/
theorem C1_augment_discards_fragment (frag ret0 : List Char)
    (h1 : toNormalStr frag ≠ []) (h2 : hasBeginV (toNormalStr frag) = true) :
    create_ical_out frag ret0 = some ret0 := by
  unfold create_ical_out create_ical_fragVar
  rw [if_neg, create_ical_finish]
  intro hor
  rcases hor with h | h
  · exact h1 h
  · rw [h2] at h
    cases h

theorem C1_augment_discards_fragment_witness :
    toNormalStr "BEGIN:VEVENT\nEND:VEVENT\n".data ≠ [] ∧
    hasBeginV (toNormalStr "BEGIN:VEVENT\nEND:VEVENT\n".data) = true ∧
    create_ical_out "BEGIN:VEVENT\nEND:VEVENT\n".data "R\n".data =
      some "R\n".data :=
  ⟨by decide, rfl, C1_augment_discards_fragment _ _ (by decide) rfl⟩

/-! ## Line-count preservation (C8) -/

theorem countNl_dropWhileSpace (l : List Char) :
    countNl (l.dropWhile (fun c => c = ' ')) = countNl l := by
  induction l with
  | nil => rfl
  | cons c r ih =>
    by_cases hc : c = ' '
    · subst hc
      simp only [List.dropWhile_cons]
      simpa [countNl, List.count_cons] using ih
    · simp [List.dropWhile_cons, hc]

theorem countNl_dropTrailingSpaces (l : List Char) :
    countNl (dropTrailingSpaces l) = countNl l := by
  have h1 := countNl_dropWhileSpace l.reverse
  unfold dropTrailingSpaces
  unfold countNl at *
  rw [List.count_reverse, h1, List.count_reverse]

theorem rule4_count (l : List Char) : countNl (rule4 l) = countNl l := by
  unfold rule4
  split
  · rename_i hlast
    rcases List.eq_nil_or_concat l with rfl | ⟨l', a, rfl⟩
    · simp at hlast
    · rw [List.concat_eq_append] at hlast ⊢
      rw [List.getLast?_concat] at hlast
      cases hlast
      rw [List.dropLast_concat]
      unfold countNl
      rw [List.count_append, List.count_append]
      rw [show (dropTrailingSpaces l').count '\n' = l'.count '\n' from
        countNl_dropTrailingSpaces l']
  · exact countNl_dropTrailingSpaces l

theorem rule2F_count : ∀ (f : Nat) (l : List Char), l.length ≤ f →
    countNl (rule2F f l) = countNl l := by
  intro f
  induction f with
  | zero =>
    intro l h
    have hl : l = [] := List.eq_nil_of_length_eq_zero (Nat.le_zero.mp h)
    subst hl
    rfl
  | succ f ih =>
    intro l h
    simp only [rule2F]
    split
    · rename_i hpre
      unfold countNl
      rw [List.count_append]
      have h0 : "CREATED:19700101T000000Z".data.count '\n' = 0 := by decide
      have h1 : "CREATED:00001231T000000Z".data.count '\n' = 0 := by decide
      rw [h0]
      have h2 := ih (l.drop 24) (by simp [List.length_drop]; omega)
      unfold countNl at h2
      rw [h2]
      conv_rhs => rw [eq_append_drop_of_isPrefixOf hpre]
      rw [List.count_append]
      simp [h1]
    · cases l with
      | nil => rfl
      | cons c r =>
        have h2 := ih r (by simp at h; omega)
        unfold countNl at *
        simp [List.count_cons, h2]

theorem rule3F_count : ∀ (f : Nat) (l : List Char), l.length ≤ f →
    countNl (rule3F f l) = countNl l := by
  intro f
  induction f with
  | zero =>
    intro l h
    have hl : l = [] := List.eq_nil_of_length_eq_zero (Nat.le_zero.mp h)
    subst hl
    rfl
  | succ f ih =>
    intro l h
    cases hm : tryQuote l with
    | some tail =>
      simp only [rule3F, hm]
      obtain ⟨m, rfl⟩ := tryQuote_spec hm
      have hlt := tryQuote_length hm
      have h2 := ih tail (by omega)
      unfold countNl at *
      simp [List.count_append, List.count_cons, List.count_replicate, h2]
    | none =>
      simp only [rule3F, hm]
      cases l with
      | nil => rfl
      | cons c r =>
        have h2 := ih r (by simp at h; omega)
        unfold countNl at *
        simp [List.count_cons, h2]

theorem rule1F_count : ∀ (f : Nat) (l : List Char), l.length ≤ f →
    countNl (rule1F f l) ≤ countNl l := by
  intro f
  induction f with
  | zero =>
    intro l h
    have hl : l = [] := List.eq_nil_of_length_eq_zero (Nat.le_zero.mp h)
    subst hl
    exact Nat.le_refl _
  | succ f ih =>
    intro l h
    cases hm : tryCompleted l with
    | some val =>
      obtain ⟨rep, rest⟩ := val
      simp only [rule1F, hm]
      obtain ⟨ds, c, hl, hrep, hds_ne, hds, hc⟩ := tryCompleted_spec hm
      have hlt := tryCompleted_length hm
      have h2 := ih rest (by omega)
      have hds0 : ds.count '\n' = 0 := by
        rw [List.count_eq_zero]
        intro hmem
        have := hds _ hmem
        simp at this
      subst hrep
      rw [hl]
      unfold countNl at *
      have hA : "COMPLETED:".data.count '\n' = 0 := by decide
      have hB : "T120000Z".data.count '\n' = 0 := by decide
      simp only [List.count_append]
      rw [hA, hB, hds0, List.count_cons]
      omega
    | none =>
      simp only [rule1F, hm]
      cases l with
      | nil => exact Nat.le_refl _
      | cons c r =>
        have h2 := ih r (by simp at h; omega)
        unfold countNl at *
        simp only [List.count_cons]
        omega

/-- C8 (amended): rules 2, 3 and 4 never change the number of lines of
the document; rule 1 never increases it, but — because the matched `\s`
is consumed and the replacement does not restore it — it removes a
newline whenever the whitespace after the digits is the line break, so it
is not line-count preserving. -/
theorem C8_rule_line_counts :
    (∀ s, countNl (rule2 s) = countNl s) ∧
    (∀ s, countNl (rule3 s) = countNl s) ∧
    (∀ s, countNl (rule4 s) = countNl s) ∧
    (∀ s, countNl (rule1 s) ≤ countNl s) :=
  ⟨fun s => rule2F_count s.length s (Nat.le_refl _),
   fun s => rule3F_count s.length s (Nat.le_refl _),
   rule4_count,
   fun s => rule1F_count s.length s (Nat.le_refl _)⟩

/-- C8 counterexample: rule 1 merges two lines into one when the
whitespace after `COMPLETED:<digits>` is a newline: the two-line document
`COMPLETED:1\nX\n` becomes the one-line `COMPLETED:1T120000ZX\n`. -/
theorem C8_counterexample :
    rule1 "COMPLETED:1\nX\n".data = "COMPLETED:1T120000ZX\n".data ∧
    countNl (rule1 "COMPLETED:1\nX\n".data) = 1 ∧
    countNl "COMPLETED:1\nX\n".data = 2 :=
  ⟨rfl, rfl, rfl⟩

/-! ## The duplicate-line filter characterization (C5) -/

theorem prefix_incomparable_false {p1 p2 l : List Char}
    (h1 : p1.isPrefixOf l = true) (h2 : p2.isPrefixOf l = true)
    (h3 : ¬ p1 <+: p2) (h4 : ¬ p2 <+: p1) : False :=
  (isPre_or_isPre (isPrefixOf_iff_isPre.mp h1)
    (isPrefixOf_iff_isPre.mp h2)).elim h3 h4

theorem matchesEnded_isBeginV {l : List Char} (h : matchesEnded l = true) :
    isBeginV l = false := by
  cases hb : isBeginV l
  · rfl
  · exfalso
    simp only [matchesEnded, Bool.or_eq_true] at h
    simp only [isBeginV] at hb
    rcases h with ((((h | h) | h) | h) | h) | h <;>
      exact prefix_incomparable_false h hb (by decide) (by decide)

theorem matchesStamp_isBeginV {l : List Char} (h : matchesStamp l = true) :
    isBeginV l = false := by
  cases hb : isBeginV l
  · rfl
  · exfalso
    simp only [matchesStamp, Bool.or_eq_true] at h
    simp only [isBeginV] at hb
    rcases h with h | h <;>
      exact prefix_incomparable_false h hb (by decide) (by decide)

theorem matchesEnded_matchesStamp {l : List Char} (h : matchesEnded l = true) :
    matchesStamp l = false := by
  cases hs : matchesStamp l
  · rfl
  · exfalso
    simp only [matchesEnded, Bool.or_eq_true] at h
    simp only [matchesStamp, Bool.or_eq_true] at hs
    rcases h with ((((h | h) | h) | h) | h) | h <;> rcases hs with hs | hs <;>
      exact prefix_incomparable_false h hs (by decide) (by decide)

theorem all_not_eq_not_any (p : List Char → Bool) (L : List (List Char)) :
    L.all (fun m => !p m) = !(L.any p) := by
  induction L with
  | nil => rfl
  | cons a as ih => simp [List.all_cons, List.any_cons, ih]

theorem stateAfter_eq (pre : List (List Char)) :
    stateAfter pre =
      ⟨if (segmentSinceBegin pre).any matchesStamp then 1 else 0,
       if (segmentSinceBegin pre).any matchesEnded then 1 else 0⟩ := by
  induction pre using List.reverseRecOn with
  | nil => rfl
  | append_singleton pre l ih =>
    unfold stateAfter segmentSinceBegin at ih ⊢
    rw [List.foldl_append, List.foldl_append]
    simp only [List.foldl_cons, List.foldl_nil]
    rw [ih]
    by_cases hb : isBeginV l
    · simp [lineCall, hb]
    · by_cases he : matchesEnded l
      · have hs := matchesEnded_matchesStamp he
        by_cases hA : (List.foldl
            (fun acc l => if isBeginV l then [] else acc ++ [l]) [] pre).any
            matchesEnded
        · simp [lineCall, hb, he, hs, hA, List.any_append]
        · simp [lineCall, hb, he, hs, hA, List.any_append]
      · by_cases hst : matchesStamp l
        · by_cases hA : (List.foldl
              (fun acc l => if isBeginV l then [] else acc ++ [l]) [] pre).any
              matchesStamp
          · simp [lineCall, hb, he, hst, hA, List.any_append]
          · simp [lineCall, hb, he, hst, hA, List.any_append]
        · simp [lineCall, hb, he, hst, List.any_append]

theorem segmentSinceBegin_append_one (pre : List (List Char)) (b : List Char) :
    segmentSinceBegin (pre ++ [b]) =
      if isBeginV b then [] else segmentSinceBegin pre ++ [b] := by
  unfold segmentSinceBegin
  rw [List.foldl_append]
  simp

/-- C5: within one component block the filter keeps the first line whose
name is `DURATION`, `DTEND` or `DUE` (followed by `:` or `;`) and drops
every later line matching any of the three; likewise for `DTSTAMP`; and a
new `BEGIN:V*` line resets both counters, so in the next block the first
such line is kept again.  `decideKeep pre l` is the filter's decision for
line `l` arriving after the lines `pre`, and `segmentSinceBegin pre` is
the current block (the lines after the last `BEGIN:V*` line). -/
theorem C5_duplicate_filter (pre : List (List Char)) (b l : List Char) :
    (matchesEnded l = true →
      (decideKeep pre l = true ↔
        (segmentSinceBegin pre).all (fun m => !matchesEnded m) = true)) ∧
    (matchesStamp l = true →
      (decideKeep pre l = true ↔
        (segmentSinceBegin pre).all (fun m => !matchesStamp m) = true)) ∧
    (isBeginV b = true → matchesEnded l = true →
      decideKeep (pre ++ [b]) l = true) ∧
    (isBeginV b = true → matchesStamp l = true →
      decideKeep (pre ++ [b]) l = true) := by
  have hkey : ∀ (q : List (List Char)),
      (matchesEnded l = true →
        (decideKeep q l = true ↔
          (segmentSinceBegin q).all (fun m => !matchesEnded m) = true)) ∧
      (matchesStamp l = true →
        (decideKeep q l = true ↔
          (segmentSinceBegin q).all (fun m => !matchesStamp m) = true)) := by
    intro q
    constructor
    · intro he
      rw [all_not_eq_not_any]
      unfold decideKeep
      rw [stateAfter_eq]
      by_cases hA : (segmentSinceBegin q).any matchesEnded
      · simp [lineCall, matchesEnded_isBeginV he, he, hA]
      · simp [lineCall, matchesEnded_isBeginV he, he, hA]
    · intro hs
      rw [all_not_eq_not_any]
      unfold decideKeep
      rw [stateAfter_eq]
      by_cases he : matchesEnded l
      · rw [matchesEnded_matchesStamp he] at hs
        cases hs
      · by_cases hA : (segmentSinceBegin q).any matchesStamp
        · simp [lineCall, matchesStamp_isBeginV hs, he, hs, hA]
        · simp [lineCall, matchesStamp_isBeginV hs, he, hs, hA]
  refine ⟨(hkey pre).1, (hkey pre).2, ?_, ?_⟩
  · intro hbV he
    rw [(hkey (pre ++ [b])).1 he, segmentSinceBegin_append_one, if_pos hbV]
    rfl
  · intro hbV hs
    rw [(hkey (pre ++ [b])).2 hs, segmentSinceBegin_append_one, if_pos hbV]
    rfl

/-- C5 witness: after `BEGIN:VEVENT` and a kept `DTEND:` line, a later
`DURATION:` line in the same block is dropped; after a fresh `BEGIN:V*`
line it is kept again. -/
theorem C5_duplicate_filter_witness :
    decideKeep ["BEGIN:VEVENT".data, "DTEND:20200101".data]
      "DURATION:PT1H".data = false ∧
    decideKeep ["BEGIN:VEVENT".data, "DTEND:20200101".data,
      "BEGIN:VTODO".data] "DURATION:PT1H".data = true := by
  constructor
  · have h := (C5_duplicate_filter
      ["BEGIN:VEVENT".data, "DTEND:20200101".data] []
      "DURATION:PT1H".data).1 (by decide)
    cases hk : decideKeep ["BEGIN:VEVENT".data, "DTEND:20200101".data]
      "DURATION:PT1H".data
    · rfl
    · exact absurd (h.mp hk) (by decide)
  · exact (C5_duplicate_filter
      ["BEGIN:VEVENT".data, "DTEND:20200101".data] "BEGIN:VTODO".data
      "DURATION:PT1H".data).2.2.1 (by decide) (by decide)

/-! ## The construct-path splice (C10) -/

theorem parseTemplateF_no_bs : ∀ (f : Nat) (l : List Char), l.length ≤ f →
    '\\' ∉ l → parseTemplateF f l = some l := by
  intro f
  induction f with
  | zero =>
    intro l h hb
    have hl : l = [] := List.eq_nil_of_length_eq_zero (Nat.le_zero.mp h)
    subst hl
    rfl
  | succ f ih =>
    intro l h hb
    cases l with
    | nil => rfl
    | cons c rest =>
      have hc : ¬ c = '\\' := fun hc => hb (by simp [hc])
      simp only [parseTemplateF]
      rw [if_neg hc]
      rw [ih rest (by simp at h; omega) (fun hm => hb (List.mem_cons_of_mem c hm))]
      rfl

theorem parseTemplate_no_bs {l : List Char} (hb : '\\' ∉ l) :
    parseTemplate l = some l :=
  parseTemplateF_no_bs l.length l (Nat.le_refl _) hb

theorem mem_of_mem_pystrip {a : Char} {l : List Char} (h : a ∈ pystrip l) :
    a ∈ l := by
  unfold pystrip at h
  rw [List.mem_reverse] at h
  have h2 : a ∈ (l.dropWhile isPySpace).reverse :=
    (List.dropWhile_sublist _).mem h
  rw [List.mem_reverse] at h2
  exact (List.dropWhile_sublist _).mem h2

theorem isPrefixOf_of_append_line {pat line rest : List Char}
    (hp : '\n' ∉ pat)
    (h : pat.isPrefixOf (line ++ '\n' :: rest) = true) :
    pat.isPrefixOf line = true := by
  induction pat generalizing line with
  | nil => simp [List.isPrefixOf]
  | cons p ps ih =>
    cases line with
    | nil =>
      simp only [List.nil_append, List.isPrefixOf, Bool.and_eq_true,
        beq_iff_eq] at h
      exact absurd (h.1 ▸ List.mem_cons_self p ps) hp
    | cons a as =>
      simp only [List.cons_append, List.isPrefixOf, Bool.and_eq_true] at h ⊢
      exact ⟨h.1, ih (fun hm => hp (List.mem_cons_of_mem p hm)) h.2⟩

theorem spliceAux_false_line (tmpl : List Char) : ∀ (l' rest : List Char),
    '\n' ∉ l' →
    spliceAux tmpl false (l' ++ '\n' :: rest) =
      l' ++ '\n' :: spliceAux tmpl true rest := by
  intro l'
  induction l' with
  | nil =>
    intro rest h
    simp [spliceAux]
  | cons a as ih =>
    intro rest h
    have ha : ¬ a = '\n' := fun heq => h (by simp [heq])
    simp only [List.cons_append, spliceAux]
    rw [if_neg (fun hand => by simp at hand)]
    rw [show (decide (a = '\n')) = false from by simp [ha]]
    simp only [List.append_eq]
    rw [ih rest (fun hm => h (List.mem_cons_of_mem a hm))]

theorem spliceAux_false_no_nl (tmpl : List Char) : ∀ (l' : List Char),
    '\n' ∉ l' → spliceAux tmpl false l' = l' := by
  intro l'
  induction l' with
  | nil => intro h; rfl
  | cons a as ih =>
    intro h
    have ha : ¬ a = '\n' := fun heq => h (by simp [heq])
    simp only [spliceAux]
    rw [if_neg (fun hand => by simp at hand)]
    rw [show (decide (a = '\n')) = false from by simp [ha]]
    rw [ih (fun hm => h (List.mem_cons_of_mem a hm))]

theorem spliceAux_true_line (tmpl line rest : List Char)
    (hnl : '\n' ∉ line) (hnp : "END:V".data.isPrefixOf line = false) :
    spliceAux tmpl true (line ++ '\n' :: rest) =
      line ++ '\n' :: spliceAux tmpl true rest := by
  cases line with
  | nil =>
    simp [spliceAux]
  | cons a as =>
    have hcond : "END:V".data.isPrefixOf ((a :: as) ++ '\n' :: rest) = false := by
      cases hx : "END:V".data.isPrefixOf ((a :: as) ++ '\n' :: rest)
      · rfl
      · rw [isPrefixOf_of_append_line (by decide) hx] at hnp
        cases hnp
    have ha : ¬ a = '\n' := fun heq => hnl (by simp [heq])
    simp only [List.cons_append] at hcond ⊢
    simp only [spliceAux]
    rw [if_neg (fun hand => by rw [hcond] at hand; simp at hand)]
    rw [show (decide (a = '\n')) = false from by simp [ha]]
    rw [spliceAux_false_line tmpl as rest
      (fun hm => hnl (List.mem_cons_of_mem a hm))]

theorem spliceAux_true_no_nl (tmpl line : List Char)
    (hnl : '\n' ∉ line) (hnp : "END:V".data.isPrefixOf line = false) :
    spliceAux tmpl true line = line := by
  cases line with
  | nil => rfl
  | cons a as =>
    have ha : ¬ a = '\n' := fun heq => hnl (by simp [heq])
    simp only [spliceAux]
    rw [if_neg (fun hand => by rw [hnp] at hand; simp at hand)]
    rw [show (decide (a = '\n')) = false from by simp [ha]]
    rw [spliceAux_false_no_nl tmpl as (fun hm => hnl (List.mem_cons_of_mem a hm))]

theorem spliceAux_true_match (tmpl l : List Char)
    (h : "END:V".data.isPrefixOf l = true) :
    spliceAux tmpl true l = tmpl ++ l.drop 5 := by
  cases l with
  | nil => exact absurd h (by decide)
  | cons c r =>
    simp only [spliceAux]
    rw [if_pos ⟨trivial, h⟩]

theorem joinNl_cons_ne (l : List Char) (M : List (List Char)) (hM : M ≠ []) :
    joinNl (l :: M) = l ++ '\n' :: joinNl M := by
  cases M with
  | nil => exact absurd rfl hM
  | cons m ms => rfl

theorem joinNl_append (A B : List (List Char)) (hA : A ≠ []) (hB : B ≠ []) :
    joinNl (A ++ B) = joinNl A ++ '\n' :: joinNl B := by
  induction A with
  | nil => exact absurd rfl hA
  | cons a as ih =>
    cases as with
    | nil =>
      rw [List.cons_append, List.nil_append, joinNl_cons_ne a B hB]
      rfl
    | cons a2 as2 =>
      rw [List.cons_append,
        joinNl_cons_ne a ((a2 :: as2) ++ B) (by simp),
        joinNl_cons_ne a (a2 :: as2) (by simp),
        ih (by simp)]
      simp

theorem spliceAux_spec (f : List Char) : ∀ (L : List (List Char)),
    (∀ l ∈ L, '\n' ∉ l) →
    L.any (fun l => "END:V".data.isPrefixOf l) = true →
    spliceAux (f ++ '\n' :: "END:V".data) true (joinNl L) =
      joinNl (L.take (L.findIdx (fun l => "END:V".data.isPrefixOf l)) ++
        splitNl f ++
        L.drop (L.findIdx (fun l => "END:V".data.isPrefixOf l))) := by
  intro L
  induction L with
  | nil =>
    intro _ hany
    simp at hany
  | cons l ls ih =>
    intro hnl hany
    cases hl : "END:V".data.isPrefixOf l with
    | true =>
      have hidx : (l :: ls).findIdx (fun m => "END:V".data.isPrefixOf m) = 0 := by
        simp [List.findIdx_cons, hl]
      rw [hidx]
      simp only [List.take_zero, List.drop_zero, List.nil_append]
      have hpre_join : "END:V".data.isPrefixOf (joinNl (l :: ls)) = true := by
        cases ls with
        | nil => exact hl
        | cons l2 ls2 =>
          rw [joinNl_cons_ne l (l2 :: ls2) (by simp)]
          rw [isPrefixOf_iff_isPre] at hl ⊢
          exact hl.trans (isPre_append _ _)
      rw [spliceAux_true_match _ _ hpre_join]
      rw [joinNl_append (splitNl f) (l :: ls) (splitNl_ne_nil f) (by simp)]
      rw [joinNl_splitNl]
      have hdec := eq_append_drop_of_isPrefixOf hpre_join
      have hlen5 : ("END:V".data).length = 5 := rfl
      rw [hlen5] at hdec
      conv_rhs => rw [hdec]
      simp
    | false =>
      have hany' : ls.any (fun m => "END:V".data.isPrefixOf m) = true := by
        simpa [List.any_cons, hl] using hany
      have hls_ne : ls ≠ [] := by
        intro h0
        rw [h0] at hany'
        simp at hany'
      have hidx : (l :: ls).findIdx (fun m => "END:V".data.isPrefixOf m) =
          ls.findIdx (fun m => "END:V".data.isPrefixOf m) + 1 := by
        simp [List.findIdx_cons, hl]
      rw [hidx]
      simp only [List.take_succ_cons, List.drop_succ_cons]
      rw [joinNl_cons_ne l ls hls_ne]
      rw [spliceAux_true_line _ l (joinNl ls)
        (hnl l (List.mem_cons_self l ls)) hl]
      rw [ih (fun m hm => hnl m (List.mem_cons_of_mem l hm)) hany']
      simp only [List.cons_append]
      rw [joinNl_cons_ne l _ (by
        intro h0
        rcases List.append_eq_nil.mp h0 with ⟨h1, h2⟩
        rcases List.append_eq_nil.mp h1 with ⟨h3, h4⟩
        exact splitNl_ne_nil f h4)]

/-- C10 counterexample: the splice is performed by `re.sub` with the
stripped fragment as the *replacement template*, so backslash escapes in
the fragment are interpreted rather than copied: the fragment
`X-A:1\nB` (with a literal backslash-n) is inserted with `\n` turned
into a real line break, hence not verbatim — the fragment is not a
substring of the output. -/
theorem C10_counterexample :
    create_ical_out "X-A:1\\nB".data "BEGIN:VCALENDAR\nEND:VCALENDAR\n".data =
      some "BEGIN:VCALENDAR\nX-A:1\nB\nEND:VCALENDAR\n".data ∧
    ¬ ("X-A:1\\nB".data <:+:
      "BEGIN:VCALENDAR\nX-A:1\nB\nEND:VCALENDAR\n".data) :=
  ⟨rfl, by decide⟩

/-- C10 (amended): on the construct path (fragment non-empty, no
`BEGIN:V` line), when the stripped fragment is non-empty, the fragment
contains no backslash (so the replacement-template processing is the
identity and the insertion really is verbatim) and the serialized text
has a line starting with `END:V`, the output is the serialized text with
the stripped fragment inserted as new lines exactly once, immediately
before the first line starting with `END:V`.  (The `'\r' ∉ frag`
hypothesis makes the modelled `to_normal_str` the identity.) -/
theorem C10_construct_splice (frag ret0 : List Char)
    (h0 : '\r' ∉ frag) (h1 : frag ≠ []) (h2 : hasBeginV frag = false)
    (h3 : pystrip frag ≠ []) (h4 : '\\' ∉ frag)
    (h5 : (splitNl ret0).any (fun l => "END:V".data.isPrefixOf l) = true) :
    create_ical_out frag ret0 = some (spliceSpec frag ret0) := by
  unfold create_ical_out
  rw [toNormalStr_of_no_cr h0]
  unfold create_ical_fragVar
  rw [if_pos (Or.inr h2)]
  simp only [create_ical_finish]
  rw [if_pos ⟨h1, h3⟩]
  have hbs : '\\' ∉ pystrip frag ++ '\n' :: "END:V".data := by
    intro hm
    rcases List.mem_append.mp hm with hm | hm
    · exact h4 (mem_of_mem_pystrip hm)
    · simp at hm
  rw [parseTemplate_no_bs hbs]
  rw [Option.map_some']
  unfold subFirstEndV spliceSpec
  have hj : ret0 = joinNl (splitNl ret0) := (joinNl_splitNl ret0).symm
  conv_lhs => rw [hj]
  rw [spliceAux_spec (pystrip frag) (splitNl ret0) (not_mem_splitNl ret0) h5]

theorem C10_construct_splice_witness :
    ('\r' ∉ "X-FOO:1".data) ∧ "X-FOO:1".data ≠ [] ∧
    hasBeginV "X-FOO:1".data = false ∧ pystrip "X-FOO:1".data ≠ [] ∧
    ('\\' ∉ "X-FOO:1".data) ∧
    (splitNl "BEGIN:VCALENDAR\nEND:VCALENDAR\n".data).any
      (fun l => "END:V".data.isPrefixOf l) = true ∧
    create_ical_out "X-FOO:1".data "BEGIN:VCALENDAR\nEND:VCALENDAR\n".data =
      some (spliceSpec "X-FOO:1".data "BEGIN:VCALENDAR\nEND:VCALENDAR\n".data) :=
  ⟨by decide, by decide, by decide, by decide, by decide, by decide,
   C10_construct_splice _ _ (by decide) (by decide) (by decide) (by decide)
     (by decide) (by decide)⟩

theorem C3_backslash_quote_pair_witness :
    1 ≤ 1 ∧
    rule3 (List.replicate 1 '\\' ++ '\'' :: '"' :: "x".data) =
      '\'' :: '"' :: rule3 "x".data ∧
    rule3 ('\\' :: '"' :: "x".data) = '\\' :: '"' :: rule3 "x".data :=
  ⟨by decide, (C3_backslash_quote_pair 1 "x".data (by decide)).1,
   (C3_backslash_quote_pair 1 "x".data (by decide)).2⟩
